import Mathlib

/-!
Shallow embedding of the youtube-subtitles repository core
(src/api.js, src/unnamed/part_002..part_004): the sharded record
store's read path, the static view generator's SRT/keyword logic and
the queue reconciler.  File-system access, gzip decompression and
JSON parsing are external effects; they are modelled by explicit
parameters (a `parse` oracle for JSON lines, a `videosOf` map from
shard path to its decoded records, an `Option MasterIndex` for the
outcome of reading `data/index/master.json`).
-/

namespace YTS

/-- A decoded video record (the fields the read path inspects).
Fields that may be absent in the JSON line are `Option`. -/
structure Video where
  id : String
  title : Option String := none
  author : Option String := none
  view_count : Int := 0
  duration : Int := 0
  deriving Repr, DecidableEq

/-- One timed subtitle segment, `{s, e, t}` in the stored JSON. -/
structure Segment where
  s : Nat
  e : Nat
  t : String
  deriving Repr, DecidableEq

/-- The parsed `data/index/master.json`. -/
structure MasterIndex where
  total : Int := 0
  shards : List (String × List String) := []
  processed : List String := []
  deriving Repr, DecidableEq

/-- JS whitespace as used by `String.prototype.trim` (ASCII part). -/
def jsSpace (c : Char) : Bool :=
  c = ' ' || c = '\t' || c = '\n' || c = '\r' || c = '\x0b' || c = '\x0c'

/-- `url.trim()` — strip whitespace from both ends. -/
def jsTrim (s : String) : String :=
  String.mk (((s.data.dropWhile jsSpace).reverse.dropWhile jsSpace).reverse)

/-- `lines.map(line => JSON.parse(line))` with JS exception
propagation: `none` as soon as one parse throws. -/
def parseAll (parse : String → Option Video) : List String → Option (List Video)
  | [] => some []
  | l :: ls =>
    match parse l with
    | none => none
    | some v =>
      match parseAll parse ls with
      | none => none
      | some vs => some (v :: vs)

/-- `YouTubeAPI.getVideosFromShard` (src/api.js:328-344, identically
src/unnamed/part_003:236-252): decompress, split into lines, keep the
nonblank lines, and run `JSON.parse` on each inside a single
`try { ... } catch { return [] }`.  `parse` is the JSON-parse oracle
for one line (`none` models a parse exception); `lines` is the
decompressed shard content split on newlines.  Because the whole
`.map(line => JSON.parse(line))` sits inside one try/catch, a single
failing line aborts the map and the catch returns `[]`. -/
def getVideosFromShard (parse : String → Option Video) (lines : List String) :
    List Video :=
  match parseAll parse (lines.filter (fun l => jsTrim l ≠ "")) with
  | some vs => vs
  | none => []

/-! ## Queue reconciler (src/unnamed/part_004, `QueueStatus`) -/

/-- One character of the id alphabet `[a-zA-Z0-9_-]`. -/
def isIdChar (c : Char) : Bool :=
  ('a' ≤ c && c ≤ 'z') || ('A' ≤ c && c ≤ 'Z') || ('0' ≤ c && c ≤ '9') ||
    c = '_' || c = '-'

/-- A character that terminates the captured id segment in the URL
regex: the class `[^&\n?#]` excludes exactly these. -/
def isUrlDelim (c : Char) : Bool :=
  c = '&' || c = '\n' || c = '?' || c = '#'

/-- Boolean list-prefix test (regex literal matching at a position). -/
def isPrefixCh : List Char → List Char → Bool
  | [], _ => true
  | _ :: _, [] => false
  | a :: as, b :: bs => a = b && isPrefixCh as bs

def markerWatch : List Char := "youtube.com/watch?v=".data

def markerShort : List Char := "youtu.be/".data

def markerEmbed : List Char := "youtube.com/embed/".data

/-- Try one alternative of
`/(?:youtube\.com\/watch\?v=|youtu\.be\/|youtube\.com\/embed\/)([^&\n?#]+)/`
at the current position: the marker must be a literal prefix and the
capture `([^&\n?#]+)` is the maximal nonempty run of non-delimiter
characters after it. -/
def captureAfter (m cs : List Char) : Option (List Char) :=
  if isPrefixCh m cs then
    let seg := (cs.drop m.length).takeWhile (fun c => !isUrlDelim c)
    if seg = [] then none else some seg
  else none

/-- All three alternatives, in the regex's left-to-right order, at one
start position. -/
def urlMatchAt (cs : List Char) : Option (List Char) :=
  match captureAfter markerWatch cs with
  | some seg => some seg
  | none =>
    match captureAfter markerShort cs with
    | some seg => some seg
    | none => captureAfter markerEmbed cs

/-- The unanchored URL regex: scan start positions left to right and
return the first successful match's capture. -/
def urlScan : List Char → Option (List Char)
  | [] => none
  | c :: cs =>
    match urlMatchAt (c :: cs) with
    | some seg => some seg
    | none => urlScan cs

/-- The second pattern `/^([a-zA-Z0-9_-]{11})$/`: the whole string is
exactly eleven id characters. -/
def bareIdMatch (cs : List Char) : Option (List Char) :=
  if cs.length = 11 && cs.all isIdChar then some cs else none

/-- `QueueStatus.extractVideoId` (src/unnamed/part_004:53-64): try the
URL pattern, then the bare-id pattern; `none` models `return null`. -/
def extractVideoId (url : String) : Option String :=
  match urlScan url.data with
  | some seg => some (String.mk seg)
  | none => (bareIdMatch url.data).map String.mk

/-- The object returned by `QueueStatus.getStatus` (timestamps
omitted: they are wall-clock effects). -/
structure QueueReport where
  total_queued : Nat
  pending_processing : Nat
  already_processed : Nat
  total_videos : Nat
  pending_video_ids : List String
  deriving Repr, DecidableEq

/-- `QueueStatus.getStatus` (src/unnamed/part_004:5-51).  `urls` is
`urls.txt` split on newlines; `masterParse` is the outcome of reading
and JSON-parsing `data/index/master.json` (`none` models the `catch`
around it firing, i.e. file absent, unreadable or unparseable —
src/unnamed/part_004:17-23 then proceeds with `processedVideos = []`). -/
def getStatus (urls : List String) (masterParse : Option MasterIndex) :
    QueueReport :=
  let queuedUrls := urls.filter (fun u => jsTrim u ≠ "")
  let processedVideos := match masterParse with
    | some idx => idx.processed
    | none => []
  let queuedVideoIds := queuedUrls.filterMap extractVideoId
  let pendingUrls := queuedVideoIds.filter (fun id => !processedVideos.contains id)
  { total_queued := queuedVideoIds.length
    pending_processing := pendingUrls.length
    already_processed := queuedVideoIds.length - pendingUrls.length
    total_videos := processedVideos.length
    pending_video_ids := pendingUrls }

/-! ## Time formatting and SRT generation
(`YouTubeAPI.formatTime`/`generateSRT`, src/api.js:221-237, identical
in src/unnamed/part_003:218-234 and part_002:194-210) -/

/-- The decimal digit character for `n < 10`. -/
def digitChar (n : Nat) : Char := Char.ofNat (48 + n)

/-- Fuel-indexed decimal rendering (most significant digit first);
the fuel only bounds recursion depth and `natChars` always supplies
enough. -/
def natCharsAux : Nat → Nat → List Char
  | 0, _ => []
  | fuel + 1, n =>
    if n < 10 then [digitChar n]
    else natCharsAux fuel (n / 10) ++ [digitChar (n % 10)]

/-- JS `String(n)` for a natural number: its decimal digits, no
leading zeros (except `"0"` itself). -/
def natChars (n : Nat) : List Char := natCharsAux (n + 1) n

/-- JS `String(n).padStart(w, '0')`. -/
def padZero (w : Nat) (cs : List Char) : List Char :=
  List.replicate (w - cs.length) '0' ++ cs

def pad2 (n : Nat) : List Char := padZero 2 (natChars n)

def pad3 (n : Nat) : List Char := padZero 3 (natChars n)

/-- `formatTime(ms)` as a character list:
`hours = floor(ms/1000/3600)`, `minutes = floor(ms/1000 % 3600 / 60)`,
`seconds = floor(ms/1000) % 60`, `milliseconds = ms % 1000`, rendered
`HH:MM:SS,mmm` with `padStart(2,'0')`/`padStart(3,'0')`. -/
def formatTimeChars (ms : Nat) : List Char :=
  pad2 (ms / 1000 / 3600) ++
    ':' :: (pad2 (ms / 1000 % 3600 / 60) ++
      ':' :: (pad2 (ms / 1000 % 60) ++
        ',' :: pad3 (ms % 1000)))

/-- `YouTubeAPI.formatTime` (src/api.js:229-237). -/
def formatTime (ms : Nat) : String := String.mk (formatTimeChars ms)

/-- One SRT cue without its trailing newline:
`` `${index+1}\n${start} --> ${end}\n${segment.t}` ``. -/
def srtCueCore (n : Nat) (seg : Segment) : String :=
  String.mk (natChars n) ++ "\n" ++ formatTime seg.s ++ " --> " ++
    formatTime seg.e ++ "\n" ++ seg.t

/-- One element of the mapped array in `generateSRT`: the template
ends with `\n`. -/
def srtCue (n : Nat) (seg : Segment) : String := srtCueCore n seg ++ "\n"

/-- The `segments.map((segment, index) => ...)` array, with `n` the
1-based index of the first segment. -/
def srtCues (n : Nat) : List Segment → List String
  | [] => []
  | seg :: rest => srtCue n seg :: srtCues (n + 1) rest

/-- JS `Array.prototype.join(sep)`. -/
def joinSep (sep : String) : List String → String
  | [] => ""
  | [x] => x
  | x :: y :: rest => x ++ sep ++ joinSep sep (y :: rest)

/-- `YouTubeAPI.generateSRT` (src/api.js:221-227):
`segments.map(cue).join('\n')`. -/
def generateSRT (segments : List Segment) : String :=
  joinSep "\n" (srtCues 1 segments)

/-! ## `YouTubeAPI.listVideos` (src/api.js:273-300) -/

/-- The filter options object passed to `listVideos`; the route
handler passes `null` (here `none`) for absent query parameters. -/
structure ListOptions where
  author : Option String := none
  min_views : Option Int := none
  max_duration : Option Int := none
  deriving Repr, DecidableEq

/-- The three `continue` guards of the inner loop, using JS
truthiness: `author && video.author !== author`,
`min_views && video.view_count < min_views`,
`max_duration && video.duration > max_duration` (an empty-string
author and a zero bound are falsy, so those filters are skipped). -/
def skipVideo (o : ListOptions) (v : Video) : Bool :=
  (match o.author with
   | some a => if a = "" then false else decide (v.author ≠ some a)
   | none => false) ||
  (match o.min_views with
   | some n => if n = 0 then false else decide (v.view_count < n)
   | none => false) ||
  (match o.max_duration with
   | some n => if n = 0 then false else decide (n < v.duration)
   | none => false)

/-- Inner `for (const video of videos)` loop of `listVideos`: state is
`(results, found)`; a record surviving the filters is pushed when
`found >= offset && results.length < limit`, and `found` is
incremented. -/
def listInner (limit offset : Nat) (o : ListOptions) :
    List Video → List Video → Nat → List Video × Nat
  | [], results, found => (results, found)
  | v :: vs, results, found =>
    if skipVideo o v then listInner limit offset o vs results found
    else
      listInner limit offset o vs
        (if offset ≤ found ∧ results.length < limit then results ++ [v] else results)
        (found + 1)

/-- Outer loop over `Object.entries(index.shards)`: before each shard
it breaks when `results.length >= limit`. -/
def listOuter (videosOf : String → List Video) (limit offset : Nat)
    (o : ListOptions) :
    List (String × List String) → List Video → Nat → List Video × Nat
  | [], results, found => (results, found)
  | (p, _) :: rest, results, found =>
    if limit ≤ results.length then (results, found)
    else
      let st := listInner limit offset o (videosOf p) results found
      listOuter videosOf limit offset o rest st.1 st.2

/-- `YouTubeAPI.listVideos`: returns the page and
`total: index.total` (src/api.js:299).  `videosOf` is
`getVideosFromShard` applied to each shard path. -/
def listVideos (videosOf : String → List Video) (idx : MasterIndex)
    (o : ListOptions) (limit offset : Nat) : List Video × Int :=
  ((listOuter videosOf limit offset o idx.shards [] 0).1, idx.total)

/-! ## `YouTubeAPI.searchVideos` (src/api.js:239-271) -/

/-- ASCII lower-casing (JS `toLowerCase`, restricted to the ASCII
range the stored titles use). -/
def jsToLower (s : String) : String := String.mk (s.data.map Char.toLower)

/-- Substring test `hay.includes(needle)` on character lists. -/
def substrCh (needle : List Char) : List Char → Bool
  | [] => isPrefixCh needle []
  | c :: rest => isPrefixCh needle (c :: rest) || substrCh needle rest

/-- The match test of `searchVideos`:
`video.title?.toLowerCase().includes(searchTerm) ||
 video.author?.toLowerCase().includes(searchTerm)` (a missing field
makes that disjunct undefined, i.e. false). -/
def videoMatches (term : String) (v : Video) : Bool :=
  (match v.title with
   | some t => substrCh term.data (jsToLower t).data
   | none => false) ||
  (match v.author with
   | some a => substrCh term.data (jsToLower a).data
   | none => false)

/-- Inner loop of `searchVideos`: state is
`(results, checked, found)`.  The first `offset` *scanned* records are
skipped via `if (checked < offset) { checked++; continue; }` before
the match test; a match is pushed when
`found >= offset && results.length < limit` and counted in `found`. -/
def searchInner (term : String) (limit offset : Nat) :
    List Video → List Video → Nat → Nat → List Video × Nat × Nat
  | [], results, checked, found => (results, checked, found)
  | v :: vs, results, checked, found =>
    if checked < offset then searchInner term limit offset vs results (checked + 1) found
    else if videoMatches term v then
      searchInner term limit offset vs
        (if offset ≤ found ∧ results.length < limit then results ++ [v] else results)
        (checked + 1) (found + 1)
    else searchInner term limit offset vs results (checked + 1) found

/-- Outer loop of `searchVideos`: before each shard it breaks when
`found >= offset + limit`. -/
def searchOuter (videosOf : String → List Video) (term : String)
    (limit offset : Nat) :
    List (String × List String) → List Video → Nat → Nat → List Video × Nat
  | [], results, _, found => (results, found)
  | (p, _) :: rest, results, checked, found =>
    if offset + limit ≤ found then (results, found)
    else
      let st := searchInner term limit offset (videosOf p) results checked found
      searchOuter videosOf term limit offset rest st.1 st.2.1 st.2.2

/-- `YouTubeAPI.searchVideos`: lower-cases the query, scans, and
returns `{ videos: results, total: found }`. -/
def searchVideos (videosOf : String → List Video) (idx : MasterIndex)
    (query : String) (limit offset : Nat) : List Video × Nat :=
  let st := searchOuter videosOf (jsToLower query) limit offset idx.shards [] 0 0
  (st.1, st.2)

/-! ## `YouTubeAPI.getRandomVideos` (src/api.js:302-326) -/

/-- The `while (randomIds.length < count && randomIds.length <
allVideoIds.length)` loop.  `rand t` models the `t`-th
`Math.floor(Math.random() * allVideoIds.length)` draw (reduced mod
the length, which is exactly its range); `used` coincides with the
set of elements of `acc`.  `fuel` bounds the number of iterations:
the JS loop terminates only with probability 1, so a run that has
not yet exited by its own condition is represented by exhausted
fuel. -/
def sampleIds (ids : List String) (count : Nat) (rand : Nat → Nat) :
    Nat → Nat → List String → List String
  | 0, _, acc => acc
  | fuel + 1, t, acc =>
    if acc.length < count ∧ acc.length < ids.length then
      match ids.get? (rand t % ids.length) with
      | none => sampleIds ids count rand fuel (t + 1) acc
      | some id =>
        if acc.contains id then sampleIds ids count rand fuel (t + 1) acc
        else sampleIds ids count rand fuel (t + 1) (acc ++ [id])
    else acc

/-- `YouTubeAPI.getRandomVideos`: sample ids from `index.processed`,
then resolve each via `this.reader.getVideo`, keeping the hits
(`if (video) videos.push(video)`).  `getVideo` abstracts the
`ShardReader` point lookup (scraper.js, outside src/). -/
def getRandomVideos (getVideo : String → Option Video) (idx : MasterIndex)
    (count : Nat) (rand : Nat → Nat) (fuel : Nat) : List Video :=
  (sampleIds idx.processed count rand fuel 0 []).filterMap getVideo

/-! ## Keyword tokenization of `generateSearchIndex`
(src/unnamed/part_003:143-157, identically part_002:114-128) -/

/-- JS `\w`: `[A-Za-z0-9_]`. -/
def isWordChar (c : Char) : Bool := c.isAlphanum || c = '_'

/-- Accumulator-based splitting on whitespace runs (the result of
`split(/\s+/)` minus empty fragments; the empty fragments JS can
produce at the ends are removed anyway by the length filter that
follows). -/
def wsTokensAux : List Char → List Char → List (List Char)
  | [], acc => if acc = [] then [] else [acc.reverse]
  | c :: cs, acc =>
    if jsSpace c then
      if acc = [] then wsTokensAux cs [] else acc.reverse :: wsTokensAux cs []
    else wsTokensAux cs (c :: acc)

def wsTokens (cs : List Char) : List (List Char) := wsTokensAux cs []

/-- `title.toLowerCase().replace(/[^\w\s]/g, '').split(/\s+/)
.filter(word => word.length > 2)`. -/
def titleTokens (title : String) : List String :=
  let cleaned := (jsToLower title).data.filter (fun c => isWordChar c || jsSpace c)
  ((wsTokens cleaned).filter (fun t => 2 < t.length)).map String.mk

/-- Insert an id into one keyword's list:
`if (!keywords[word]) keywords[word] = [];
 if (!keywords[word].includes(id)) keywords[word].push(id)`.
The keyword map is an insertion-ordered association list, as JS
object keys are. -/
def addIdToKeyword : List (String × List String) → String → String →
    List (String × List String)
  | [], w, id => [(w, [id])]
  | (w', ids) :: rest, w, id =>
    if w' = w then (w', if ids.contains id then ids else ids ++ [id]) :: rest
    else (w', ids) :: addIdToKeyword rest w id

/-- Process one video's title into the keyword map (`if (video.title)`
guards the whole block). -/
def addVideoKeywords (kw : List (String × List String)) (v : Video) :
    List (String × List String) :=
  match v.title with
  | none => kw
  | some t => (titleTokens t).foldl (fun kw w => addIdToKeyword kw w v.id) kw

/-- The `keywords` object of the search index after scanning
`videos`. -/
def buildKeywords (videos : List Video) : List (String × List String) :=
  videos.foldl addVideoKeywords []

/-- `StaticAPIGenerator.generateStats` (src/unnamed/part_003:26-44):
on a successful read/parse it writes a stats artifact; the `catch`
only logs (`console.error`) and the run continues, so the caller
receives no error — modelled by a total function with no error
channel whose `none` result is the silently-skipped artifact. -/
def generateStats : Option MasterIndex → Option (Int × Nat)
  | none => none
  | some idx => some (idx.total, idx.shards.length)

/-! # Theorems -/

/-- A concrete JSON-parse oracle: a shard whose decompressed content
has one well-formed line `"ok"` and anything else corrupt. -/
def parseDemo : String → Option Video :=
  fun s => if s = "ok" then some { id := "a" } else none

theorem parseAll_eq_none (parse : String → Option Video) (l : String)
    (hl : parse l = none) :
    ∀ ls : List String, l ∈ ls → parseAll parse ls = none := by
  intro ls hmem
  induction ls with
  | nil => cases hmem
  | cons x rest ih =>
    rcases List.mem_cons.mp hmem with h | h
    · subst h
      simp [parseAll, hl]
    · cases hx : parse x with
      | none => simp [parseAll, hx]
      | some v => simp [parseAll, hx, ih h]

/-- C1: the claim says a corrupt line is skipped and the other
well-formed records of the shard are still returned.  The code wraps
the whole `.map(line => JSON.parse(line))` in one try/catch, so any
single unparseable nonblank line makes `getVideosFromShard` return
`[]`, dropping every well-formed record of the shard; dropping the
corrupt line instead returns the good record. -/
theorem C1_corrupt_line_drops_whole_shard :
    (∀ (parse : String → Option Video) (lines : List String) (l : String),
        l ∈ lines → jsTrim l ≠ "" → parse l = none →
        getVideosFromShard parse lines = []) ∧
    getVideosFromShard parseDemo ["ok", "corrupt"] = [] ∧
    getVideosFromShard parseDemo ["ok"] = [{ id := "a" }] := by
  refine ⟨?_, by decide, by decide⟩
  intro parse lines l hmem htrim hnone
  unfold getVideosFromShard
  rw [parseAll_eq_none parse l hnone _ (List.mem_filter.mpr ⟨hmem, by simpa using htrim⟩)]

theorem C1_corrupt_line_drops_whole_shard_witness :
    ("corrupt" ∈ ["ok", "corrupt"] ∧ jsTrim "corrupt" ≠ "" ∧
      parseDemo "corrupt" = none) ∧
    getVideosFromShard parseDemo ["ok", "corrupt"] = [] :=
  ⟨⟨by decide, by decide, by decide⟩,
    C1_corrupt_line_drops_whole_shard.1 parseDemo ["ok", "corrupt"] "corrupt"
      (by decide) (by decide) (by decide)⟩

/-- C5: the claim (and spec §7) requires a master index that exists
but does not parse to surface an explicit error.  Instead
`QueueStatus.getStatus` swallows the parse failure
(src/unnamed/part_004:21-23, `processedVideos = []`) and returns
output identical to that of a genuinely empty store, and
`StaticAPIGenerator.generateStats` only logs and continues.  A caller
cannot distinguish a corrupt index from an empty one. -/
theorem C5_corrupt_index_indistinguishable_from_empty :
    (∀ urls : List String,
        getStatus urls none =
          getStatus urls (some { total := 0, shards := [], processed := [] })) ∧
    (getStatus [] none).already_processed = 0 ∧
    (getStatus [] none).total_videos = 0 ∧
    generateStats none = none :=
  ⟨fun _ => rfl, rfl, rfl, rfl⟩

/-- Deduplication keeping the first occurrence, as the claim's
`pending` formula demands. -/
def dedupFirst (l : List String) : List String :=
  l.foldl (fun acc x => if acc.contains x then acc else acc ++ [x]) []

/-- The claim's `pending`: normalized ids in original input order,
deduplicated with the first occurrence kept, restricted to ids not in
`processed`. -/
def claimPending (urls processed : List String) : List String :=
  (dedupFirst (urls.filterMap extractVideoId)).filter
    (fun id => !processed.contains id)

theorem length_sub_filter_not (pred : String → Bool) (l : List String) :
    l.length - (l.filter (fun x => !pred x)).length = l.countP pred := by
  induction l with
  | nil => rfl
  | cons x xs ih =>
    have hle := List.length_filter_le (fun x => !pred x) xs
    cases h : pred x <;>
      simp [List.countP_cons, h] <;> omega

/-- C3 counterexample: the code never deduplicates the normalized
ids, so a repeated pending id appears twice in `pending_video_ids`,
while the claim's formula keeps only the first occurrence. -/
theorem C3_no_dedup_counterexample :
    (getStatus ["dQw4w9WgXcQ", "dQw4w9WgXcQ"]
        (some { total := 0, shards := [], processed := [] })).pending_video_ids =
      ["dQw4w9WgXcQ", "dQw4w9WgXcQ"] ∧
    claimPending ["dQw4w9WgXcQ", "dQw4w9WgXcQ"] [] = ["dQw4w9WgXcQ"] ∧
    (["dQw4w9WgXcQ", "dQw4w9WgXcQ"] : List String) ≠ ["dQw4w9WgXcQ"] :=
  ⟨by decide, by decide, by decide⟩

/-- C3 amended: `pending` is the normalized ids in original input
order *without deduplication*, restricted to ids not in `processed`;
`already_processed` counts the normalized ids present in `processed`
(equivalently the normalized-id count minus the pending length);
`total_queued` is the normalized-id count, and the two parts always
sum back to it.  Inputs that normalize to no id are dropped by the
`filterMap`.  The spec's concrete reconciliation example (which has
no duplicate) holds as stated. -/
theorem C3_reconciler_amended :
    (∀ (urls : List String) (idx : MasterIndex),
      (getStatus urls (some idx)).pending_video_ids =
        ((urls.filter (fun u => jsTrim u ≠ "")).filterMap extractVideoId).filter
          (fun id => !idx.processed.contains id) ∧
      (getStatus urls (some idx)).total_queued =
        ((urls.filter (fun u => jsTrim u ≠ "")).filterMap extractVideoId).length ∧
      (getStatus urls (some idx)).already_processed =
        ((urls.filter (fun u => jsTrim u ≠ "")).filterMap extractVideoId).countP
          (fun id => idx.processed.contains id) ∧
      (getStatus urls (some idx)).total_queued =
        (getStatus urls (some idx)).already_processed +
          (getStatus urls (some idx)).pending_processing) ∧
    (getStatus ["https://youtu.be/dQw4w9WgXcQ",
        "https://www.youtube.com/watch?v=9bZkp7q19f0"]
        (some { total := 1, shards := [], processed := ["dQw4w9WgXcQ"] })) =
      { total_queued := 2, pending_processing := 1, already_processed := 1,
        total_videos := 1, pending_video_ids := ["9bZkp7q19f0"] } := by
  refine ⟨fun urls idx => ⟨rfl, rfl, ?_, ?_⟩, by decide⟩
  · exact length_sub_filter_not _ _
  · have hle := List.length_filter_le
      (fun id => !idx.processed.contains id)
      ((urls.filter (fun u => jsTrim u ≠ "")).filterMap extractVideoId)
    simp only [getStatus]
    omega

theorem takeWhile_all {p : Char → Bool} :
    ∀ t : List Char, (∀ c ∈ t, p c = true) → t.takeWhile p = t := by
  intro t ht
  induction t with
  | nil => rfl
  | cons c cs ih =>
    simp only [List.takeWhile_cons, ht c (List.mem_cons_self c cs)]
    simp [ih fun c hc => ht c (List.mem_cons_of_mem _ hc)]

theorem takeWhile_append_stop {p : Char → Bool} :
    ∀ (t : List Char) (d : Char) (rest : List Char),
      (∀ c ∈ t, p c = true) → p d = false →
      (t ++ d :: rest).takeWhile p = t := by
  intro t d rest ht hd
  induction t with
  | nil => simp [List.takeWhile_cons, hd]
  | cons c cs ih =>
    simp only [List.cons_append, List.takeWhile_cons,
      ht c (List.mem_cons_self c cs)]
    simp [ih fun c hc => ht c (List.mem_cons_of_mem _ hc)]

theorem isPrefixCh_self_append : ∀ m tail : List Char,
    isPrefixCh m (m ++ tail) = true := by
  intro m tail
  induction m with
  | nil => rfl
  | cons a as ih => simp [isPrefixCh, ih]

theorem captureAfter_self_append (m tail : List Char) :
    captureAfter m (m ++ tail) =
      if tail.takeWhile (fun c => !isUrlDelim c) = [] then none
      else some (tail.takeWhile (fun c => !isUrlDelim c)) := by
  unfold captureAfter
  rw [isPrefixCh_self_append]
  simp [List.drop_left]

theorem urlScan_of_matchAt (cs : List Char) (seg : List Char) (hne : cs ≠ [])
    (h : urlMatchAt cs = some seg) : urlScan cs = some seg := by
  cases cs with
  | nil => exact absurd rfl hne
  | cons c rest => simp [urlScan, h]

theorem extractVideoId_of_matchAt (l seg : List Char) (hne : l ≠ [])
    (h : urlMatchAt l = some seg) :
    extractVideoId (String.mk l) = some (String.mk seg) := by
  simp [extractVideoId, urlScan_of_matchAt l seg hne h]

/-- C10: whenever one of the three URL markers occurs with at least
one following non-delimiter character, `extractVideoId` returns the
entire run of characters after the marker up to the next
`&`/`?`/`#`/newline (or end of input), with no check that the run is
eleven characters long or drawn from the id alphabet; the bare-id
pattern is consulted only when the URL pattern finds no match.  The
two closed instances return segments of length 3 and 29. -/
theorem C10_extractVideoId_unvalidated_segment :
    (∀ t rest : List Char, t ≠ [] → (∀ c ∈ t, isUrlDelim c = false) →
      (∀ d : Char, isUrlDelim d = true →
        extractVideoId (String.mk (markerWatch ++ (t ++ d :: rest))) =
          some (String.mk t) ∧
        extractVideoId (String.mk (markerShort ++ (t ++ d :: rest))) =
          some (String.mk t) ∧
        extractVideoId (String.mk (markerEmbed ++ (t ++ d :: rest))) =
          some (String.mk t)) ∧
      extractVideoId (String.mk (markerWatch ++ t)) = some (String.mk t) ∧
      extractVideoId (String.mk (markerShort ++ t)) = some (String.mk t) ∧
      extractVideoId (String.mk (markerEmbed ++ t)) = some (String.mk t)) ∧
    (∀ s : String, urlScan s.data = none →
      extractVideoId s = (bareIdMatch s.data).map String.mk) ∧
    extractVideoId "youtu.be/abc" = some "abc" ∧
    extractVideoId "youtube.com/watch?v=this_is_not_an_eleven_char_id#x" =
      some "this_is_not_an_eleven_char_id" := by
  refine ⟨?_, ?_, by decide, by decide⟩
  · intro t rest htne hnd
    have hta : ∀ p : Char → Bool, p = (fun c => !isUrlDelim c) →
        t.takeWhile p = t := by
      intro p hp
      subst hp
      exact takeWhile_all t (by simpa using hnd)
    have ht2 : t.takeWhile (fun c => !isUrlDelim c) = t := hta _ rfl
    refine ⟨?_, ?_, ?_, ?_⟩
    · intro d hd
      have ht1 : (t ++ d :: rest).takeWhile (fun c => !isUrlDelim c) = t :=
        takeWhile_append_stop t d rest (by simpa using hnd) (by simp [hd])
      refine ⟨?_, ?_, ?_⟩
      · refine extractVideoId_of_matchAt _ _ (by simp [markerWatch]) ?_
        simp only [urlMatchAt, captureAfter_self_append, ht1]
        simp [htne]
      · have hW : captureAfter markerWatch (markerShort ++ (t ++ d :: rest)) = none := rfl
        refine extractVideoId_of_matchAt _ _ (by simp [markerShort]) ?_
        simp only [urlMatchAt, hW, captureAfter_self_append, ht1]
        simp [htne]
      · have hW : captureAfter markerWatch (markerEmbed ++ (t ++ d :: rest)) = none := rfl
        have hS : captureAfter markerShort (markerEmbed ++ (t ++ d :: rest)) = none := rfl
        refine extractVideoId_of_matchAt _ _ (by simp [markerEmbed]) ?_
        simp only [urlMatchAt, hW, hS, captureAfter_self_append, ht1]
        simp [htne]
    · refine extractVideoId_of_matchAt _ _ (by simp [markerWatch]) ?_
      simp only [urlMatchAt, captureAfter_self_append, ht2]
      simp [htne]
    · have hW : captureAfter markerWatch (markerShort ++ t) = none := rfl
      refine extractVideoId_of_matchAt _ _ (by simp [markerShort]) ?_
      simp only [urlMatchAt, hW, captureAfter_self_append, ht2]
      simp [htne]
    · have hW : captureAfter markerWatch (markerEmbed ++ t) = none := rfl
      have hS : captureAfter markerShort (markerEmbed ++ t) = none := rfl
      refine extractVideoId_of_matchAt _ _ (by simp [markerEmbed]) ?_
      simp only [urlMatchAt, hW, hS, captureAfter_self_append, ht2]
      simp [htne]
  · intro s h
    simp [extractVideoId, h]

theorem C10_extractVideoId_unvalidated_segment_witness :
    ((['a', 'b', 'c'] : List Char) ≠ [] ∧
      (∀ c ∈ (['a', 'b', 'c'] : List Char), isUrlDelim c = false) ∧
      isUrlDelim '&' = true) ∧
    extractVideoId (String.mk (markerShort ++ (['a', 'b', 'c'] ++ '&' :: []))) =
      some (String.mk ['a', 'b', 'c']) :=
  ⟨⟨by decide, by decide, by decide⟩,
    ((C10_extractVideoId_unvalidated_segment.1 ['a', 'b', 'c'] []
      (by decide) (by decide)).1 '&' (by decide)).2.1⟩

/-- Numeric value of a decimal digit character. -/
def charVal (c : Char) : Nat := c.toNat - 48

/-- Value of a decimal digit string (leading zeros are ignored by
place value). -/
def valCh (cs : List Char) : Nat := cs.foldl (fun acc c => 10 * acc + charVal c) 0

theorem charVal_digitChar {n : Nat} (h : n < 10) : charVal (digitChar n) = n := by
  interval_cases n <;> rfl

theorem valCh_append_singleton (xs : List Char) (c : Char) :
    valCh (xs ++ [c]) = 10 * valCh xs + charVal c := by
  simp [valCh, List.foldl_append]

theorem valCh_natCharsAux : ∀ fuel n : Nat, n < 10 ^ fuel →
    valCh (natCharsAux fuel n) = n := by
  intro fuel
  induction fuel with
  | zero =>
    intro n h
    interval_cases n
    rfl
  | succ fuel ih =>
    intro n h
    by_cases h10 : n < 10
    · simp [natCharsAux, h10, valCh, charVal_digitChar h10]
    · have hd : n / 10 < 10 ^ fuel := by
        rw [pow_succ, mul_comm] at h
        exact Nat.div_lt_of_lt_mul h
      simp only [natCharsAux, h10, if_false]
      rw [valCh_append_singleton, ih _ hd,
        charVal_digitChar (Nat.mod_lt n (by norm_num))]
      omega

theorem lt_ten_pow_succ (n : Nat) : n < 10 ^ (n + 1) :=
  calc n < 10 ^ n := Nat.lt_pow_self (by norm_num) n
  _ ≤ 10 ^ (n + 1) := Nat.pow_le_pow_right (by norm_num) (Nat.le_succ n)

theorem valCh_natChars (n : Nat) : valCh (natChars n) = n :=
  valCh_natCharsAux (n + 1) n (lt_ten_pow_succ n)

theorem valCh_replicate_zero (k : Nat) (cs : List Char) :
    valCh (List.replicate k '0' ++ cs) = valCh cs := by
  induction k with
  | zero => simp
  | succ k ih =>
    simp only [List.replicate_succ, List.cons_append, valCh, List.foldl_cons]
    have h0 : 10 * 0 + charVal '0' = 0 := rfl
    rw [h0]
    exact ih

theorem valCh_pad2 (n : Nat) : valCh (pad2 n) = n := by
  rw [pad2, padZero, valCh_replicate_zero]
  exact valCh_natChars n

theorem valCh_pad3 (n : Nat) : valCh (pad3 n) = n := by
  rw [pad3, padZero, valCh_replicate_zero]
  exact valCh_natChars n

theorem natCharsAux_length_le : ∀ fuel n w : Nat, 0 < w → n < 10 ^ w →
    w ≤ fuel → (natCharsAux fuel n).length ≤ w := by
  intro fuel
  induction fuel with
  | zero => intro n w hw _ hle; omega
  | succ fuel ih =>
    intro n w hw hn hle
    by_cases h10 : n < 10
    · simp [natCharsAux, h10]
      omega
    · obtain ⟨w', rfl⟩ : ∃ w', w = w' + 1 := ⟨w - 1, by omega⟩
      have hw' : 0 < w' := by
        rcases Nat.eq_zero_or_pos w' with h | h
        · subst h
          simp at hn
          omega
        · exact h
      have hd : n / 10 < 10 ^ w' := by
        rw [pow_succ, mul_comm] at hn
        exact Nat.div_lt_of_lt_mul hn
      simp only [natCharsAux, h10, if_false, List.length_append,
        List.length_cons, List.length_nil]
      have := ih (n / 10) w' hw' hd (by omega)
      omega

theorem natChars_length_le_two {n : Nat} (h : n < 100) :
    (natChars n).length ≤ 2 := by
  match n with
  | 0 => decide
  | Nat.succ m =>
    exact natCharsAux_length_le (m + 2) (m + 1) 2 (by norm_num) h (by omega)

theorem natChars_length_le_three {n : Nat} (h : n < 1000) :
    (natChars n).length ≤ 3 := by
  match n with
  | 0 => decide
  | 1 => decide
  | Nat.succ (Nat.succ m) =>
    exact natCharsAux_length_le (m + 3) (m + 2) 3 (by norm_num) h (by omega)

theorem pad2_length {n : Nat} (h : n < 100) : (pad2 n).length = 2 := by
  have := natChars_length_le_two h
  simp only [pad2, padZero, List.length_append, List.length_replicate]
  omega

theorem pad3_length {n : Nat} (h : n < 1000) : (pad3 n).length = 3 := by
  have := natChars_length_le_three h
  simp only [pad3, padZero, List.length_append, List.length_replicate]
  omega

theorem pad2_inj {m n : Nat} (h : pad2 m = pad2 n) : m = n := by
  have := congrArg valCh h
  rwa [valCh_pad2, valCh_pad2] at this

theorem pad3_inj {m n : Nat} (h : pad3 m = pad3 n) : m = n := by
  have := congrArg valCh h
  rwa [valCh_pad3, valCh_pad3] at this

theorem formatTime_inj (a b : Nat) (h : formatTime a = formatTime b) : a = b := by
  have hd : formatTimeChars a = formatTimeChars b := congrArg String.data h
  unfold formatTimeChars at hd
  have hm1 : a / 1000 % 3600 / 60 < 100 := by omega
  have hm2 : b / 1000 % 3600 / 60 < 100 := by omega
  have hs1 : a / 1000 % 60 < 100 := by omega
  have hs2 : b / 1000 % 60 < 100 := by omega
  have hms1 : a % 1000 < 1000 := by omega
  have hms2 : b % 1000 < 1000 := by omega
  obtain ⟨h1, hrest⟩ := List.append_inj' hd (by
    simp [pad2_length hm1, pad2_length hm2, pad2_length hs1, pad2_length hs2,
      pad3_length hms1, pad3_length hms2])
  have ha1 : a / 1000 / 3600 = b / 1000 / 3600 := pad2_inj h1
  have hrest2 := List.cons_injective.eq_iff.mp hrest
  obtain ⟨h2, hrest3⟩ := List.append_inj hrest2 (by
    rw [pad2_length hm1, pad2_length hm2])
  have ha2 := pad2_inj h2
  have hrest4 := List.cons_injective.eq_iff.mp hrest3
  obtain ⟨h3, hrest5⟩ := List.append_inj hrest4 (by
    rw [pad2_length hs1, pad2_length hs2])
  have ha3 := pad2_inj h3
  have hrest6 := List.cons_injective.eq_iff.mp hrest5
  have ha4 := pad3_inj hrest6
  omega

/-- C9: `formatTime` renders the fields
`HH = ms/1000/3600`, `MM = ms/1000%3600/60`, `SS = ms/1000%60`,
`mmm = ms%1000`; these recompose to `ms` and satisfy `MM,SS < 60`,
`mmm < 1000`; the rendering is injective (`padStart` widens rather
than truncates, e.g. `100` hours renders as three digits). -/
theorem C9_formatTime_fields_and_injective :
    (∀ ms : Nat,
      formatTime ms = String.mk (pad2 (ms / 1000 / 3600) ++ ':' ::
        (pad2 (ms / 1000 % 3600 / 60) ++ ':' ::
          (pad2 (ms / 1000 % 60) ++ ',' :: pad3 (ms % 1000)))) ∧
      ((ms / 1000 / 3600) * 3600 + (ms / 1000 % 3600 / 60) * 60 +
          ms / 1000 % 60) * 1000 + ms % 1000 = ms ∧
      ms / 1000 % 3600 / 60 < 60 ∧ ms / 1000 % 60 < 60 ∧ ms % 1000 < 1000) ∧
    (∀ a b : Nat, formatTime a = formatTime b → a = b) ∧
    formatTime 360000000 = "100:00:00,000" :=
  ⟨fun ms => ⟨rfl, by omega, by omega, by omega, by omega⟩,
    formatTime_inj, by decide⟩

theorem C9_formatTime_fields_and_injective_witness :
    formatTime 45296789 = formatTime 45296789 ∧ (45296789 : Nat) = 45296789 :=
  ⟨rfl, C9_formatTime_fields_and_injective.2.1 45296789 45296789 rfl⟩

theorem string_data_ext {a b : String} (h : a.data = b.data) : a = b :=
  congrArg String.mk h

/-- The cue blocks without their trailing newline, 1-based from `n`. -/
def srtCueCores (n : Nat) : List Segment → List String
  | [] => []
  | seg :: rest => srtCueCore n seg :: srtCueCores (n + 1) rest

theorem joinSep_srtCues : ∀ (segs : List Segment) (n : Nat) (seg : Segment),
    joinSep "\n" (srtCues n (seg :: segs)) =
      joinSep "\n\n" (srtCueCores n (seg :: segs)) ++ "\n" := by
  intro segs
  induction segs with
  | nil =>
    intro n seg
    rfl
  | cons s2 rest ih =>
    intro n seg
    have H := ih (n + 1) s2
    simp only [srtCues, srtCueCores, joinSep, srtCue] at H ⊢
    rw [H]
    apply string_data_ext
    simp

/-- C4: for a non-empty segment list, `generateSRT` is the 1-based
numbered cue blocks (`i`, newline, `start --> end`, newline, text)
separated by exactly one blank line, with a final newline; the spec's
two-segment example produces exactly the expected byte string. -/
theorem C4_generateSRT_blocks :
    (∀ (seg : Segment) (segs : List Segment),
      generateSRT (seg :: segs) =
        joinSep "\n\n" (srtCueCores 1 (seg :: segs)) ++ "\n") ∧
    generateSRT [⟨0, 3000, "We\x27re no strangers to love"⟩,
        ⟨3000, 6000, "You know the rules and so do I"⟩] =
      "1\n00:00:00,000 --> 00:00:03,000\nWe\x27re no strangers to love\n\n2\n00:00:03,000 --> 00:00:06,000\nYou know the rules and so do I\n" :=
  ⟨fun seg segs => joinSep_srtCues segs 1 seg, by decide⟩

theorem foldl_preserve {α β : Type} (P : β → Prop) (step : β → α → β)
    (hstep : ∀ b a, P b → P (step b a)) :
    ∀ (l : List α) (init : β), P init → P (l.foldl step init) := by
  intro l
  induction l with
  | nil => intro init h; exact h
  | cons x xs ih => intro init h; exact ih _ (hstep _ _ h)

theorem addIdToKeyword_nodup :
    ∀ (kw : List (String × List String)) (w id : String),
      (∀ e ∈ kw, e.2.Nodup) → ∀ e ∈ addIdToKeyword kw w id, e.2.Nodup := by
  intro kw w id
  induction kw with
  | nil =>
    intro _ e he
    simp only [addIdToKeyword, List.mem_singleton] at he
    subst he
    simp
  | cons p rest ih =>
    intro h e he
    obtain ⟨w', ids⟩ := p
    have hids : ids.Nodup := h (w', ids) (List.mem_cons_self _ _)
    have hrest : ∀ e ∈ rest, e.2.Nodup :=
      fun e he => h e (List.mem_cons_of_mem _ he)
    simp only [addIdToKeyword] at he
    split at he
    · rcases List.mem_cons.mp he with he | he
      · subst he
        by_cases hc : ids.contains id
        · have hm : id ∈ ids := by simpa using hc
          simpa [hm] using hids
        · have hm : id ∉ ids := by simpa using hc
          simp [hm, List.nodup_append, hids]
      · exact hrest e he
    · rcases List.mem_cons.mp he with he | he
      · subst he
        exact hids
      · exact ih hrest e he

theorem buildKeywords_nodup (videos : List Video) :
    ∀ e ∈ buildKeywords videos, e.2.Nodup := by
  refine foldl_preserve (fun kw => ∀ e ∈ kw, e.2.Nodup) addVideoKeywords
    ?_ videos [] (by simp)
  intro kw v h
  unfold addVideoKeywords
  cases v.title with
  | none => exact h
  | some t =>
    exact foldl_preserve (fun kw => ∀ e ∈ kw, e.2.Nodup)
      (fun kw w => addIdToKeyword kw w v.id)
      (fun kw w hkw => addIdToKeyword_nodup kw w v.id hkw) (titleTokens t) kw h

/-- C6: every id list in the keyword map is duplicate-free (an id is
appended only when not already present), and the tokenizer lower-cases
the title, strips non-word characters, splits on whitespace and drops
tokens of length at most 2 — the spec's example title yields exactly
`rick astley never gonna give you`. -/
theorem C6_keywords_nodup_and_tokenization :
    (∀ (videos : List Video) (w : String) (ids : List String),
      (w, ids) ∈ buildKeywords videos → ids.Nodup) ∧
    titleTokens "Rick Astley - Never Gonna Give You Up!" =
      ["rick", "astley", "never", "gonna", "give", "you"] :=
  ⟨fun videos w ids h => buildKeywords_nodup videos (w, ids) h, by decide⟩

theorem C6_keywords_nodup_and_tokenization_witness :
    ("abc", ["a"]) ∈ buildKeywords [{ id := "a", title := some "abc abc" }] ∧
    (["a"] : List String).Nodup :=
  ⟨by decide,
    C6_keywords_nodup_and_tokenization.1
      [{ id := "a", title := some "abc abc" }] "abc" ["a"] (by decide)⟩

/-- The claim's filter semantics: `author` exact match, `min_views`
inclusive lower bound, `max_duration` inclusive upper bound. -/
def recordMatches (o : ListOptions) (v : Video) : Bool :=
  (match o.author with | some a => decide (v.author = some a) | none => true) &&
  (match o.min_views with | some n => decide (n ≤ v.view_count) | none => true) &&
  (match o.max_duration with | some n => decide (v.duration ≤ n) | none => true)

/-- Every record of every shard referenced by the index, in index
order. -/
def storeVideos (videosOf : String → List Video) (idx : MasterIndex) :
    List Video :=
  idx.shards.flatMap (fun s => videosOf s.1)

/-- The claim's `total`: how many records of the entire store match
the filter. -/
def matchingTotal (videosOf : String → List Video) (idx : MasterIndex)
    (o : ListOptions) : Nat :=
  (storeVideos videosOf idx).countP (recordMatches o)

theorem recordMatches_of_not_skip (o : ListOptions) (v : Video)
    (h1 : o.author ≠ some "") (h2 : o.min_views ≠ some 0)
    (h3 : o.max_duration ≠ some 0) (h : skipVideo o v = false) :
    recordMatches o v = true := by
  obtain ⟨oa, om, od⟩ := o
  unfold skipVideo at h
  unfold recordMatches
  cases oa <;> cases om <;> cases od <;> simp_all

theorem listInner_invariant (limit offset : Nat) (o : ListOptions) :
    ∀ (vs results : List Video) (found : Nat),
      (∀ v ∈ results, skipVideo o v = false) → results.length ≤ limit →
      (∀ v ∈ (listInner limit offset o vs results found).1,
        skipVideo o v = false) ∧
      (listInner limit offset o vs results found).1.length ≤ limit := by
  intro vs
  induction vs with
  | nil => intro results found h hl; exact ⟨h, hl⟩
  | cons v vs ih =>
    intro results found h hl
    by_cases hs : skipVideo o v = true
    · simpa [listInner, hs] using ih results found h hl
    · have hs' : skipVideo o v = false := by simpa using hs
      by_cases hc : offset ≤ found ∧ results.length < limit
      · have hmem : ∀ x ∈ results ++ [v], skipVideo o x = false := by
          intro x hx
          rcases List.mem_append.mp hx with hx | hx
          · exact h x hx
          · rcases List.mem_singleton.mp hx with rfl
            exact hs'
        have hlen : (results ++ [v]).length ≤ limit := by
          simp only [List.length_append, List.length_singleton]
          omega
        simpa [listInner, hs', hc] using ih (results ++ [v]) (found + 1) hmem hlen
      · simpa [listInner, hs', hc] using ih results (found + 1) h hl

theorem listOuter_invariant (videosOf : String → List Video)
    (limit offset : Nat) (o : ListOptions) :
    ∀ (shards : List (String × List String)) (results : List Video)
      (found : Nat),
      (∀ v ∈ results, skipVideo o v = false) → results.length ≤ limit →
      (∀ v ∈ (listOuter videosOf limit offset o shards results found).1,
        skipVideo o v = false) ∧
      (listOuter videosOf limit offset o shards results found).1.length ≤ limit := by
  intro shards
  induction shards with
  | nil => intro results found h hl; exact ⟨h, hl⟩
  | cons s rest ih =>
    intro results found h hl
    obtain ⟨p, ids⟩ := s
    by_cases hb : limit ≤ results.length
    · simpa [listOuter, hb] using ⟨h, hl⟩
    · have hin := listInner_invariant limit offset o (videosOf p) results found h hl
      simpa [listOuter, hb] using
        ih (listInner limit offset o (videosOf p) results found).1
          (listInner limit offset o (videosOf p) results found).2 hin.1 hin.2

/-- C2 counterexample: a store of two records of which exactly one
matches the author filter.  `listVideos` reports `total = 2` — the
master index's overall record count — while the number of matching
records in the entire store is `1`. -/
theorem C2_list_total_counterexample :
    (listVideos
        (fun p => if p = "s" then
          [{ id := "a", author := some "x" }, { id := "b", author := some "y" }]
          else [])
        { total := 2, shards := [("s", ["a", "b"])], processed := ["a", "b"] }
        { author := some "x" } 50 0).2 = 2 ∧
    matchingTotal
        (fun p => if p = "s" then
          [{ id := "a", author := some "x" }, { id := "b", author := some "y" }]
          else [])
        { total := 2, shards := [("s", ["a", "b"])], processed := ["a", "b"] }
        { author := some "x" } = 1 ∧
    (2 : Int) ≠ (1 : Int) :=
  ⟨by decide, by decide, by decide⟩

/-- C2 amended: `listVideos` always reports `total = index.total`,
the store's overall record count, regardless of the filter; the page
itself is filtered correctly (with truthy options every returned
record matches) and never exceeds `limit` records. -/
theorem C2_list_total_amended :
    ∀ (videosOf : String → List Video) (idx : MasterIndex) (o : ListOptions)
      (limit offset : Nat),
      o.author ≠ some "" → o.min_views ≠ some 0 → o.max_duration ≠ some 0 →
      (listVideos videosOf idx o limit offset).2 = idx.total ∧
      (∀ v ∈ (listVideos videosOf idx o limit offset).1,
        recordMatches o v = true) ∧
      (listVideos videosOf idx o limit offset).1.length ≤ limit := by
  intro videosOf idx o limit offset h1 h2 h3
  have hout := listOuter_invariant videosOf limit offset o idx.shards [] 0
    (by simp) (by simp)
  exact ⟨rfl,
    fun v hv => recordMatches_of_not_skip o v h1 h2 h3 (hout.1 v hv),
    hout.2⟩

theorem C2_list_total_amended_witness :
    ((none : Option String) ≠ some "" ∧ (none : Option Int) ≠ some 0) ∧
    (listVideos (fun _ => [{ id := "a" }])
        { total := 1, shards := [("s", ["a"])], processed := ["a"] }
        {} 10 0).2 = 1 :=
  ⟨⟨by decide, by decide⟩,
    (C2_list_total_amended (fun _ => [{ id := "a" }])
        { total := 1, shards := [("s", ["a"])], processed := ["a"] }
        {} 10 0 (by decide) (by decide) (by decide)).1⟩

theorem searchInner_zero (term : String) (limit : Nat) :
    ∀ (vs results : List Video) (checked found : Nat),
      results.length = found →
      found + vs.countP (videoMatches term) ≤ limit →
      searchInner term limit 0 vs results checked found =
        (results ++ vs.filter (videoMatches term), checked + vs.length,
          found + vs.countP (videoMatches term)) := by
  intro vs
  induction vs with
  | nil =>
    intro results checked found hrf hb
    simp [searchInner]
  | cons v vs ih =>
    intro results checked found hrf hb
    by_cases hm : videoMatches term v = true
    · have hcount : (v :: vs).countP (videoMatches term) =
          vs.countP (videoMatches term) + 1 := by
        simp [List.countP_cons, hm]
      have hlt : results.length < limit := by omega
      have hlen : (results ++ [v]).length = found + 1 := by
        simp [hrf]
      have hb' : (found + 1) + vs.countP (videoMatches term) ≤ limit := by omega
      simp only [searchInner, Nat.not_lt_zero, if_false, hm, if_true,
        Nat.zero_le, hlt, and_true, true_and, ite_true]
      rw [ih (results ++ [v]) (checked + 1) (found + 1) hlen hb']
      simp [List.filter_cons, hm, hcount]
      omega
    · have hm' : videoMatches term v = false := by simpa using hm
      have hcount : (v :: vs).countP (videoMatches term) =
          vs.countP (videoMatches term) := by
        simp [List.countP_cons, hm']
      simp only [searchInner, Nat.not_lt_zero, if_false, hm', Bool.false_eq_true]
      rw [ih results (checked + 1) found hrf (by omega)]
      simp [List.filter_cons, hm', hcount]
      omega

theorem searchInner_invariant (term : String) (limit offset : Nat) :
    ∀ (vs results : List Video) (checked found : Nat),
      (∀ v ∈ results, videoMatches term v = true) → results.length ≤ limit →
      (∀ v ∈ (searchInner term limit offset vs results checked found).1,
        videoMatches term v = true) ∧
      (searchInner term limit offset vs results checked found).1.length ≤ limit := by
  intro vs
  induction vs with
  | nil => intro results checked found h hl; exact ⟨h, hl⟩
  | cons v vs ih =>
    intro results checked found h hl
    by_cases hsk : checked < offset
    · simpa [searchInner, hsk] using ih results (checked + 1) found h hl
    · by_cases hm : videoMatches term v = true
      · by_cases hc : offset ≤ found ∧ results.length < limit
        · have hmem : ∀ x ∈ results ++ [v], videoMatches term x = true := by
            intro x hx
            rcases List.mem_append.mp hx with hx | hx
            · exact h x hx
            · rcases List.mem_singleton.mp hx with rfl
              exact hm
          have hlen : (results ++ [v]).length ≤ limit := by
            simp only [List.length_append, List.length_singleton]
            omega
          simpa [searchInner, hsk, hm, hc] using
            ih (results ++ [v]) (checked + 1) (found + 1) hmem hlen
        · simpa [searchInner, hsk, hm, hc] using
            ih results (checked + 1) (found + 1) h hl
      · have hm' : videoMatches term v = false := by simpa using hm
        simpa [searchInner, hsk, hm'] using ih results (checked + 1) found h hl

theorem searchOuter_invariant (videosOf : String → List Video) (term : String)
    (limit offset : Nat) :
    ∀ (shards : List (String × List String)) (results : List Video)
      (checked found : Nat),
      (∀ v ∈ results, videoMatches term v = true) → results.length ≤ limit →
      (∀ v ∈ (searchOuter videosOf term limit offset shards results checked found).1,
        videoMatches term v = true) ∧
      (searchOuter videosOf term limit offset shards results checked found).1.length ≤
        limit := by
  intro shards
  induction shards with
  | nil => intro results checked found h hl; exact ⟨h, hl⟩
  | cons s rest ih =>
    intro results checked found h hl
    obtain ⟨p, ids⟩ := s
    by_cases hb : offset + limit ≤ found
    · simpa [searchOuter, hb] using ⟨h, hl⟩
    · have hin := searchInner_invariant term limit offset (videosOf p)
        results checked found h hl
      simpa [searchOuter, hb] using
        ih (searchInner term limit offset (videosOf p) results checked found).1
          (searchInner term limit offset (videosOf p) results checked found).2.1
          (searchInner term limit offset (videosOf p) results checked found).2.2
          hin.1 hin.2

/-- C8 counterexample: one shard holding two records that both match
query `"B"` case-insensitively.  With `offset = 1, limit = 10` the
claim demands the page `[second match]` and `total = 2`; the code
skips the first *scanned* record before matching (it is neither
returned nor counted) and returns `([], 1)`. -/
theorem C8_search_offset_counterexample :
    searchVideos
        (fun p => if p = "s" then
          [{ id := "1", title := some "abc" }, { id := "2", title := some "xbcx" }]
          else [])
        { total := 2, shards := [("s", ["1", "2"])], processed := ["1", "2"] }
        "B" 10 1 = ([], 1) ∧
    ((storeVideos
        (fun p => if p = "s" then
          [{ id := "1", title := some "abc" }, { id := "2", title := some "xbcx" }]
          else [])
        { total := 2, shards := [("s", ["1", "2"])], processed := ["1", "2"] }).filter
      (videoMatches (jsToLower "B"))).drop 1 =
      [{ id := "2", title := some "xbcx" }] ∧
    (storeVideos
        (fun p => if p = "s" then
          [{ id := "1", title := some "abc" }, { id := "2", title := some "xbcx" }]
          else [])
        { total := 2, shards := [("s", ["1", "2"])], processed := ["1", "2"] }).countP
      (videoMatches (jsToLower "B")) = 2 ∧
    (([], 1) : List Video × Nat) ≠
      ([{ id := "2", title := some "xbcx" }], 2) :=
  ⟨by decide, by decide, by decide, by decide⟩

/-- C8 amended: matching is indeed case-insensitive substring over
title or author, every returned record matches and at most `limit`
are returned; but `offset` is applied to the scan position, not to
the match sequence, and the scan stops early, so the reported total
is not in general the full-store match count.  With `offset = 0` on a
single-shard store whose match count is at most `limit`, the page is
exactly the matching records in store order and the total is the
true match count. -/
theorem C8_search_amended :
    (∀ (videosOf : String → List Video) (idx : MasterIndex) (q : String)
      (limit offset : Nat),
      (∀ v ∈ (searchVideos videosOf idx q limit offset).1,
        videoMatches (jsToLower q) v = true) ∧
      (searchVideos videosOf idx q limit offset).1.length ≤ limit) ∧
    (∀ (videosOf : String → List Video) (idx : MasterIndex) (p : String)
      (ids : List String) (q : String) (limit : Nat),
      idx.shards = [(p, ids)] →
      (videosOf p).countP (videoMatches (jsToLower q)) ≤ limit →
      searchVideos videosOf idx q limit 0 =
        ((videosOf p).filter (videoMatches (jsToLower q)),
          (videosOf p).countP (videoMatches (jsToLower q)))) := by
  constructor
  · intro videosOf idx q limit offset
    exact searchOuter_invariant videosOf (jsToLower q) limit offset idx.shards
      [] 0 0 (by simp) (by simp)
  · intro videosOf idx p ids q limit hsh hb
    unfold searchVideos
    rw [hsh]
    by_cases hl : limit = 0
    · subst hl
      have hc : (videosOf p).countP (videoMatches (jsToLower q)) = 0 := by omega
      have hf : (videosOf p).filter (videoMatches (jsToLower q)) = [] := by
        have := List.countP_eq_length_filter (videoMatches (jsToLower q)) (videosOf p)
        rw [hc] at this
        exact List.length_eq_zero.mp this.symm
      simp [searchOuter, hc, hf]
    · have h0 : ¬ (0 + limit ≤ 0) := by omega
      simp only [searchOuter, h0, if_false]
      rw [searchInner_zero (jsToLower q) limit (videosOf p) [] 0 0 (by simp)
        (by simpa using hb)]
      simp [searchOuter]

theorem C8_search_amended_witness :
    (({ total := 2, shards := [("s", ["1", "2"])],
        processed := ["1", "2"] } : MasterIndex).shards = [("s", ["1", "2"])] ∧
      ((fun p => if p = "s" then
          [{ id := "1", title := some "abc" }, { id := "2", title := some "xbcx" }]
          else []) "s").countP
        (videoMatches (jsToLower "zzz")) ≤ 10) ∧
    searchVideos
        (fun p => if p = "s" then
          [{ id := "1", title := some "abc" }, { id := "2", title := some "xbcx" }]
          else [])
        { total := 2, shards := [("s", ["1", "2"])], processed := ["1", "2"] }
        "zzz" 10 0 =
      (((fun p => if p = "s" then
          [{ id := "1", title := some "abc" }, { id := "2", title := some "xbcx" }]
          else []) "s").filter (videoMatches (jsToLower "zzz")),
        ((fun p => if p = "s" then
          [{ id := "1", title := some "abc" }, { id := "2", title := some "xbcx" }]
          else []) "s").countP (videoMatches (jsToLower "zzz"))) :=
  ⟨⟨rfl, by decide⟩,
    C8_search_amended.2
      (fun p => if p = "s" then
        [{ id := "1", title := some "abc" }, { id := "2", title := some "xbcx" }]
        else [])
      { total := 2, shards := [("s", ["1", "2"])], processed := ["1", "2"] }
      "s" ["1", "2"] "zzz" 10 rfl (by decide)⟩

theorem sampleIds_invariant (ids : List String) (count : Nat)
    (rand : Nat → Nat) :
    ∀ (fuel t : Nat) (acc : List String),
      acc.Nodup → (∀ x ∈ acc, x ∈ ids) →
      (sampleIds ids count rand fuel t acc).Nodup ∧
      (∀ x ∈ sampleIds ids count rand fuel t acc, x ∈ ids) := by
  intro fuel
  induction fuel with
  | zero => intro t acc h1 h2; exact ⟨h1, h2⟩
  | succ fuel ih =>
    intro t acc h1 h2
    by_cases hc : acc.length < count ∧ acc.length < ids.length
    · cases hg : ids[rand t % ids.length]? with
      | none => simpa [sampleIds, hc, hg] using ih (t + 1) acc h1 h2
      | some id =>
        by_cases hm : id ∈ acc
        · simpa [sampleIds, hc, hg, hm] using ih (t + 1) acc h1 h2
        · have hid : id ∈ ids := by
            have hg' : ids.get? (rand t % ids.length) = some id := by
              simpa [List.get?_eq_getElem?] using hg
            exact List.get?_mem hg'
          have hnm : id ∉ acc := hm
          have h1' : (acc ++ [id]).Nodup := by
            simp [List.nodup_append, h1, hnm]
          have h2' : ∀ x ∈ acc ++ [id], x ∈ ids := by
            intro x hx
            rcases List.mem_append.mp hx with hx | hx
            · exact h2 x hx
            · rcases List.mem_singleton.mp hx with rfl
              exact hid
          simpa [sampleIds, hc, hg, hm] using ih (t + 1) (acc ++ [id]) h1' h2'
    · simpa [sampleIds, hc] using ⟨h1, h2⟩

theorem perm_of_nodup_subset_length {l l' : List String} (h1 : l.Nodup)
    (h2 : l ⊆ l') (hlen : l.length = l'.length) : l.Perm l' :=
  (h1.subperm h2).perm_of_length_le (le_of_eq hlen.symm)

theorem filterMap_map_id_sublist (f : String → Option Video)
    (hf : ∀ id v, f id = some v → v.id = id) :
    ∀ l : List String, ((l.filterMap f).map Video.id).Sublist l := by
  intro l
  induction l with
  | nil => simp
  | cons x xs ih =>
    cases hx : f x with
    | none =>
      simp only [List.filterMap_cons, hx]
      exact ih.cons x
    | some v =>
      have hv : v.id = x := hf x v hx
      simp only [List.filterMap_cons, hx, List.map_cons, hv]
      exact ih.cons₂ x

theorem filterMap_map_id_total (f : String → Option Video)
    (hf : ∀ id v, f id = some v → v.id = id) :
    ∀ l : List String, (∀ x ∈ l, ∃ v, f x = some v) →
      (l.filterMap f).map Video.id = l := by
  intro l
  induction l with
  | nil => intro _; rfl
  | cons x xs ih =>
    intro h
    obtain ⟨v, hv⟩ := h x (List.mem_cons_self _ _)
    have hid : v.id = x := hf x v hv
    simp only [List.filterMap_cons, hv, List.map_cons, hid]
    rw [ih fun y hy => h y (List.mem_cons_of_mem _ hy)]

/-- C7: the ids sampled by `getRandomVideos` are pairwise distinct
and drawn from `processed`; the resolved records are pairwise
distinct; and when the sampling loop ran to completion over the whole
store (its length reached `processed.length`, which requires
`count ≥ n`), the sampled ids are a permutation of `processed` — with
every id resolvable, every stored record is returned exactly once.
`rand` is the random-draw oracle and `fuel` bounds the
probabilistically-terminating `while` loop. -/
theorem C7_random_without_replacement :
    ∀ (getVideo : String → Option Video) (idx : MasterIndex) (count : Nat)
      (rand : Nat → Nat) (fuel : Nat),
      idx.processed.Nodup →
      (∀ id v, getVideo id = some v → v.id = id) →
      (sampleIds idx.processed count rand fuel 0 []).Nodup ∧
      (∀ x ∈ sampleIds idx.processed count rand fuel 0 [],
        x ∈ idx.processed) ∧
      (getRandomVideos getVideo idx count rand fuel).Nodup ∧
      ((sampleIds idx.processed count rand fuel 0 []).length =
          idx.processed.length →
        (sampleIds idx.processed count rand fuel 0 []).Perm idx.processed ∧
        ((∀ x ∈ idx.processed, ∃ v, getVideo x = some v) →
          ((getRandomVideos getVideo idx count rand fuel).map Video.id).Perm
            idx.processed)) := by
  intro getVideo idx count rand fuel hnd hf
  obtain ⟨hsnd, hsub⟩ := sampleIds_invariant idx.processed count rand fuel 0 []
    (by simp) (by simp)
  have hsubl := filterMap_map_id_sublist getVideo hf
    (sampleIds idx.processed count rand fuel 0 [])
  refine ⟨hsnd, hsub, ?_, ?_⟩
  · exact (hsubl.nodup hsnd).of_map Video.id
  · intro hlen
    have hperm : (sampleIds idx.processed count rand fuel 0 []).Perm
        idx.processed := perm_of_nodup_subset_length hsnd hsub hlen
    refine ⟨hperm, fun hres => ?_⟩
    rw [getRandomVideos, filterMap_map_id_total getVideo hf _
      fun x hx => hres x (hsub x hx)]
    exact hperm

theorem C7_random_without_replacement_witness :
    ((["a", "b", "c"] : List String).Nodup ∧
      (sampleIds ["a", "b", "c"] 5 (fun t => t) 10 0 []).length =
        (["a", "b", "c"] : List String).length) ∧
    (sampleIds ["a", "b", "c"] 5 (fun t => t) 10 0 []).Perm ["a", "b", "c"] :=
  ⟨⟨by decide, by decide⟩,
    ((C7_random_without_replacement (fun i => some { id := i })
        { total := 3, shards := [], processed := ["a", "b", "c"] } 5
        (fun t => t) 10 (by decide)
        (fun id v h => by injection h with h2; subst h2; rfl)).2.2.2
      (by decide)).1⟩

end YTS
